import Mathlib

/-!
Verification of the BEKK multivariate GARCH estimation engine against its
specification.  The numeric core (variance recursion, Gaussian
quasi-likelihood, parameter restriction / compact-coordinate layer, and the
estimator's configuration validation) is embedded shallowly: matrices are
rational-valued `Matrix (Fin n) (Fin n) ℚ`, the recursion is an explicit
structural recursion over time, and fallible constructors return `Except`
or `Option` values.
-/

namespace Bekk

open Matrix

/-- Square rational matrix of size `n`, the carrier for intercept, ARCH and
GARCH coefficient matrices and for conditional covariance matrices. -/
abbrev Mat (n : ℕ) := Matrix (Fin n) (Fin n) ℚ

/-- One observation of the innovation series: a vector of `n` asset shocks. -/
abbrev Vec (n : ℕ) := Fin n → ℚ

/-- Modelled from the spec: canonical structural parameters of the standard
BEKK family: intercept `cmat`, ARCH coefficient `amat`, GARCH coefficient
`bmat`, each an `n × n` matrix. -/
structure ParamStandard (n : ℕ) where
  cmat : Mat n
  amat : Mat n
  bmat : Mat n
  deriving DecidableEq

/-- Modelled from the spec: one step of the BEKK variance recursion,
`H[t] = C + A · (x xᵗ) · Aᵗ + B · H[t-1] · Bᵗ`, where `x` is the previous
innovation and `Hprev` the previous conditional covariance. -/
def bekkStep (cmat amat bmat : Mat n) (hprev : Mat n) (x : Vec n) : Mat n :=
  cmat + amat * Matrix.vecMulVec x x * amatᵀ + bmat * hprev * bmatᵀ

/-- Modelled from the spec: the naive (reference) variance recursion
`filter_var_python`, which is missing from `src/` (only its caller
`usage_example.py` is present).  `H[0]` is the caller-supplied seed; for
`t ≥ 1` the full update formula is applied to the previous matrix and the
previous innovation. -/
def filter_var_python (cmat amat bmat h0 : Mat n) (innov : ℕ → Vec n) :
    ℕ → Mat n
  | 0 => h0
  | t + 1 => bekkStep cmat amat bmat (filter_var_python cmat amat bmat h0 innov t) (innov t)

/-- Modelled from the spec: the closed-form scalar GARCH(1,1) update
`h[t] = c + a·x[t-1]² + b·h[t-1]` that the `n = 1` instance of the variance
recursion is compared against. -/
def garch11 (c a b h0 : ℚ) (x : ℕ → ℚ) : ℕ → ℚ
  | 0 => h0
  | t + 1 => c + a * x t ^ 2 + b * garch11 c a b h0 x t

lemma vecMulVec_self_isSymm (x : Vec n) : (Matrix.vecMulVec x x).IsSymm := by
  ext i j
  simp [Matrix.vecMulVec_apply, Matrix.transpose_apply, mul_comm]

lemma conj_isSymm (M N : Mat n) (hN : N.IsSymm) : (M * N * Mᵀ).IsSymm := by
  unfold Matrix.IsSymm at hN ⊢
  rw [Matrix.transpose_mul, Matrix.transpose_mul, Matrix.transpose_transpose,
    hN, ← Matrix.mul_assoc]

lemma bekkStep_isSymm (cmat amat bmat hprev : Mat n) (x : Vec n)
    (hc : cmat.IsSymm) (hh : hprev.IsSymm) :
    (bekkStep cmat amat bmat hprev x).IsSymm :=
  (hc.add (conj_isSymm amat _ (vecMulVec_self_isSymm x))).add
    (conj_isSymm bmat _ hh)

/-- C1: for every structural parameters, every innovation series of length
`T`, and every caller-supplied seed `H[0]`, the variance recursion produces
the path `H[t] = C + A·(x[t-1] x[t-1]ᵗ)·Aᵗ + B·H[t-1]·Bᵗ` for `1 ≤ t ≤ T−1`;
moreover `H[t]` depends only on `H[t-1]` and `innov[t-1]`: any seed and
innovation series agreeing on those two quantities produce the same `H[t]`. -/
theorem filter_var_python_recursion (n T : ℕ) (cmat amat bmat h0 : Mat n)
    (innov : ℕ → Vec n) (t : ℕ) (h1 : 1 ≤ t) (h2 : t ≤ T - 1) :
    filter_var_python cmat amat bmat h0 innov t
      = cmat + amat * Matrix.vecMulVec (innov (t - 1)) (innov (t - 1)) * amatᵀ
        + bmat * filter_var_python cmat amat bmat h0 innov (t - 1) * bmatᵀ
    ∧ ∀ (h0' : Mat n) (innov' : ℕ → Vec n),
        filter_var_python cmat amat bmat h0' innov' (t - 1)
          = filter_var_python cmat amat bmat h0 innov (t - 1) →
        innov' (t - 1) = innov (t - 1) →
        filter_var_python cmat amat bmat h0' innov' t
          = filter_var_python cmat amat bmat h0 innov t := by
  obtain ⟨s, rfl⟩ : ∃ s, t = s + 1 := ⟨t - 1, (Nat.succ_pred_eq_of_pos h1).symm⟩
  constructor
  · rfl
  · intro h0' innov' hprev hinn
    simp only [Nat.add_sub_cancel] at hprev hinn
    simp [filter_var_python, hprev, hinn]

/-- Concrete `1 × 1` matrices and data used by the closed witnesses. -/
def exm (q : ℚ) : Mat 1 := Matrix.of fun _ _ => q

/-- Concrete constant innovation series used by the closed witnesses. -/
def exInnov (q : ℚ) : ℕ → Vec 1 := fun _ _ => q

/-- Closed witness for C1 at `n = 1`, `T = 3`, `t = 1`, concrete data. -/
theorem filter_var_python_recursion_witness :
    (1 : ℕ) ≤ 1 ∧ (1 : ℕ) ≤ 3 - 1 ∧
      (filter_var_python (exm 1) (exm 1) (exm 1) (exm 2) (exInnov 3) 1
        = exm 1 + exm 1 * Matrix.vecMulVec (exInnov 3 0) (exInnov 3 0) * (exm 1)ᵀ
          + exm 1 * filter_var_python (exm 1) (exm 1) (exm 1) (exm 2) (exInnov 3) 0
            * (exm 1)ᵀ) :=
  ⟨le_refl 1, by decide,
    (filter_var_python_recursion 1 3 (exm 1) (exm 1) (exm 1) (exm 2) (exInnov 3)
      1 (le_refl 1) (by decide)).1⟩

/-- Concrete `2 × 2` matrices used by the C6 witness. -/
def exSym (a b : ℚ) : Mat 2 := Matrix.of fun i j => if i = j then a else b

/-- C6: symmetry is an invariant of the variance recursion: for a symmetric
intercept and a symmetric seed, every matrix in the produced covariance path
is symmetric (exactly, in the rational-arithmetic embedding). -/
theorem filter_var_python_isSymm (n : ℕ) (cmat amat bmat h0 : Mat n)
    (innov : ℕ → Vec n) (hc : cmat.IsSymm) (hh : h0.IsSymm) (t : ℕ) :
    (filter_var_python cmat amat bmat h0 innov t).IsSymm := by
  induction t with
  | zero => exact hh
  | succ s ih => exact bekkStep_isSymm cmat amat bmat _ (innov s) hc ih

/-- Closed witness for C6 at `n = 2`, concrete symmetric inputs, `t = 2`. -/
theorem filter_var_python_isSymm_witness :
    (exSym 1 0).IsSymm ∧ (exSym 4 1).IsSymm ∧
    (filter_var_python (exSym 1 0) (exSym 2 1) (exSym 3 0) (exSym 4 1)
        (fun t i => (t : ℚ) + (i : ℚ)) 2).IsSymm :=
  ⟨by decide, by decide,
    filter_var_python_isSymm 2 (exSym 1 0) (exSym 2 1) (exSym 3 0) (exSym 4 1)
      (fun t i => (t : ℚ) + (i : ℚ)) (by decide) (by decide) 2⟩

/-- C7 counterexample: the claim reads the `n = 1` recursion as
`h[t] = c + a·x[t-1]² + b·h[t-1]` where `c`, `a`, `b` are the entries of the
`1 × 1` intercept, ARCH and GARCH matrices.  That is false: with `C = [[1]]`,
`A = [[2]]`, `B = [[0]]`, `x ≡ 1`, `h[0] = 1` the recursion yields
`h[1] = 1 + 2·1·2 = 5`, while `c + a·x² + b·h[0] = 1 + 2 + 0 = 3`. -/
theorem filter_var_python_scalar_counterexample :
    filter_var_python (exm 1) (exm 2) (exm 0) (exm 1) (exInnov 1) 1 0 0
      ≠ exm 1 0 0 + exm 2 0 0 * exInnov 1 0 0 ^ 2
        + exm 0 0 0 * filter_var_python (exm 1) (exm 2) (exm 0) (exm 1) (exInnov 1) 0 0 0 := by
  simp only [filter_var_python, bekkStep, exm, exInnov, Matrix.add_apply,
    Matrix.mul_apply, Matrix.transpose_apply, Matrix.vecMulVec_apply,
    Matrix.of_apply, Fin.sum_univ_one]
  norm_num

/-- C7 (amended): for `n = 1` the general variance recursion, with no
special-casing, is exactly the scalar GARCH(1,1) recursion with shock
coefficient `a²` and persistence coefficient `b²`, where `a`, `b` are the
entries of the `1 × 1` ARCH and GARCH matrices: the whole produced path
agrees with `garch11 c (a²) (b²)`, and in particular
`h[t] = c + a²·x[t-1]² + b²·h[t-1]` for every `t ≥ 1`. -/
theorem filter_var_python_scalar_case (C A B H0 : Mat 1) (innov : ℕ → Vec 1) :
    (∀ t, filter_var_python C A B H0 innov t 0 0
        = garch11 (C 0 0) (A 0 0 ^ 2) (B 0 0 ^ 2) (H0 0 0)
            (fun s => innov s 0) t)
    ∧ ∀ t, 1 ≤ t →
        filter_var_python C A B H0 innov t 0 0
          = C 0 0 + A 0 0 ^ 2 * innov (t - 1) 0 ^ 2
            + B 0 0 ^ 2 * filter_var_python C A B H0 innov (t - 1) 0 0 := by
  have key : ∀ t, filter_var_python C A B H0 innov t 0 0
      = garch11 (C 0 0) (A 0 0 ^ 2) (B 0 0 ^ 2) (H0 0 0)
          (fun s => innov s 0) t := by
    intro t
    induction t with
    | zero => rfl
    | succ s ih =>
      show bekkStep C A B (filter_var_python C A B H0 innov s) (innov s) 0 0 = _
      simp only [bekkStep, Matrix.add_apply, Matrix.mul_apply,
        Matrix.transpose_apply, Matrix.vecMulVec_apply, Fin.sum_univ_one,
        garch11, ih]
      ring
  refine ⟨key, ?_⟩
  intro t h1
  obtain ⟨s, rfl⟩ : ∃ s, t = s + 1 := ⟨t - 1, (Nat.succ_pred_eq_of_pos h1).symm⟩
  simp only [Nat.add_sub_cancel, key]
  show garch11 _ _ _ _ _ (s + 1) = _
  simp only [garch11]

/-- Closed witness for C7 at concrete `1 × 1` data, `t = 2`. -/
theorem filter_var_python_scalar_case_witness :
    (1 : ℕ) ≤ 2 ∧
    filter_var_python (exm 1) (exm 2) (exm 3) (exm 5) (exInnov 7) 2 0 0
      = exm 1 0 0 + exm 2 0 0 ^ 2 * exInnov 7 (2 - 1) 0 ^ 2
        + exm 3 0 0 ^ 2
          * filter_var_python (exm 1) (exm 2) (exm 3) (exm 5) (exInnov 7)
              (2 - 1) 0 0 :=
  ⟨by decide,
    (filter_var_python_scalar_case (exm 1) (exm 2) (exm 3) (exm 5)
      (exInnov 7)).2 2 (by decide)⟩

/-- Modelled from the spec: the positive-definiteness tolerance for the
likelihood evaluator (the spec leaves the concrete constant to the
implementer). -/
def eps : ℚ := 1 / 1000000

/-- Modelled from the spec: the large finite penalty substituted for the
likelihood contribution of a numerically degenerate covariance matrix. -/
noncomputable def penalty : ℝ := (10 : ℝ) ^ 10

/-- Explicit (computable, adjugate-based) matrix inverse over `ℚ`, used by
the likelihood evaluator; it agrees with Mathlib's `Inv` on `ℚ`-matrices. -/
def qInv (H : Mat n) : Mat n := H.det⁻¹ • H.adjugate

lemma qInv_eq_inv (H : Mat n) : qInv H = H⁻¹ := by
  rw [Matrix.inv_def, qInv, Ring.inverse_eq_inv]

/-- Leading principal minor of order `k`: the determinant of the top-left
`k × k` corner of a square matrix. -/
def leadingMinor (A : Mat n) (k : ℕ) (hk : k ≤ n) : ℚ :=
  Matrix.det (A.submatrix (fun i : Fin k => Fin.castLE hk i)
    (fun i : Fin k => Fin.castLE hk i))

/-- Modelled from the spec: the Cholesky factorization test of numeric
positive-definiteness: the factorization of a covariance candidate succeeds
exactly when the matrix is symmetric and every pivot, i.e. every leading
principal minor, is strictly positive; otherwise it fails. -/
def choleskyOk (A : Mat n) : Prop :=
  Aᵀ = A ∧ ∀ k : Fin n, 0 < leadingMinor A ((k : ℕ) + 1) k.isLt

instance (A : Mat n) : Decidable (choleskyOk A) := by
  unfold choleskyOk
  infer_instance

/-- Modelled from the spec: the per-observation Gaussian quasi-likelihood
contribution `ll[t] = log det H[t] + x[t]ᵗ·H[t]⁻¹·x[t]`, with the numeric
degeneracy policy: when `H[t]` is not numerically positive-definite — its
Cholesky factorization fails or its determinant is at most the tolerance
`eps` — a large finite penalty is returned instead of raising. -/
noncomputable def contribution (H : Mat n) (x : Vec n) : ℝ :=
  if ¬ choleskyOk H ∨ H.det ≤ eps then penalty
  else Real.log ((H.det : ℚ) : ℝ) + ((dotProduct x ((qInv H).mulVec x) : ℚ) : ℝ)

/-- Modelled from the spec: the reference likelihood evaluator
`likelihood_python` (missing from `src/`; only its caller is present): the
mean of the per-observation contributions over `t = 1 … T−1`, the seed entry
`t = 0` excluded. -/
noncomputable def likelihood_python (hvar : ℕ → Mat n) (innov : ℕ → Vec n)
    (T : ℕ) : ℝ :=
  (∑ t ∈ Finset.Ico 1 T, contribution (hvar t) (innov t)) / ((T - 1 : ℕ) : ℝ)

/-- C2: the likelihood evaluator computes per-observation contributions
`ll[t] = log det H[t] + x[t]ᵗ·H[t]⁻¹·x[t]` (for non-degenerate `H[t]`), and
the aggregate objective is the mean of `ll[t]` over `t = 1 … T−1` only: the
index set is exactly `range T` with the seed index `0` removed. -/
theorem likelihood_python_spec (n : ℕ) (hvar : ℕ → Mat n) (innov : ℕ → Vec n)
    (T : ℕ) :
    likelihood_python hvar innov T
      = (∑ t ∈ Finset.Ico 1 T, contribution (hvar t) (innov t))
          / ((T - 1 : ℕ) : ℝ)
    ∧ Finset.Ico 1 T = (Finset.range T).erase 0
    ∧ ∀ t, choleskyOk (hvar t) → eps < (hvar t).det →
        contribution (hvar t) (innov t)
          = Real.log (((hvar t).det : ℚ) : ℝ)
            + ((dotProduct (innov t) ((hvar t)⁻¹.mulVec (innov t)) : ℚ) : ℝ) := by
  refine ⟨rfl, ?_, ?_⟩
  · ext a
    simp only [Finset.mem_Ico, Finset.mem_erase, Finset.mem_range]
    omega
  · intro t hok ht
    rw [contribution, if_neg (not_or.mpr ⟨not_not_intro hok, not_le.mpr ht⟩),
      qInv_eq_inv]

lemma choleskyOk_one : choleskyOk (1 : Mat 1) := by
  constructor
  · exact Matrix.transpose_one
  · intro k
    fin_cases k
    rw [leadingMinor, Matrix.det_fin_one]
    norm_num [Matrix.submatrix_apply, Matrix.one_apply]

/-- Closed witness for C2: identity covariance at `n = 1`, `t = 5`. -/
theorem likelihood_python_spec_witness :
    choleskyOk (1 : Mat 1) ∧ eps < ((1 : Mat 1)).det ∧
    contribution (1 : Mat 1) (exInnov 3 5)
      = Real.log ((((1 : Mat 1)).det : ℚ) : ℝ)
        + ((dotProduct (exInnov 3 5) (((1 : Mat 1)⁻¹).mulVec (exInnov 3 5)) : ℚ) : ℝ) :=
  ⟨choleskyOk_one, by norm_num [eps, Matrix.det_one],
    (likelihood_python_spec 1 (fun _ => (1 : Mat 1)) (exInnov 3) 6).2.2 5
      choleskyOk_one (by norm_num [eps, Matrix.det_one])⟩

/-- C5: on a covariance matrix that is not numerically positive-definite —
its Cholesky factorization fails, or its determinant is at most the
tolerance `eps` — the likelihood evaluator does not fail: it returns the
large finite penalty constant for that observation.  The evaluator is a
total function into `ℝ`, so no exception can propagate to the caller. -/
theorem contribution_degenerate_penalty (n : ℕ) (H : Mat n) (x : Vec n)
    (hdeg : ¬ choleskyOk H ∨ H.det ≤ eps) :
    contribution H x = penalty ∧ penalty = (10 : ℝ) ^ 10 :=
  ⟨by rw [contribution, if_pos hdeg], rfl⟩

/-- The matrix `diag(-1, -2)`: not positive-definite (its Cholesky
factorization fails on the negative first pivot), yet its determinant is
`2`, well above the tolerance. -/
def exDiagNeg : Mat 2 :=
  Matrix.of fun i j => if i = j then (if i = 0 then -1 else -2) else 0

lemma exDiagNeg_not_choleskyOk : ¬ choleskyOk exDiagNeg := by
  rintro ⟨-, hm⟩
  have h0 := hm 0
  rw [leadingMinor, Matrix.det_fin_one] at h0
  norm_num [Matrix.submatrix_apply, exDiagNeg, Matrix.of_apply,
    Fin.castLE] at h0

/-- Closed witness for C5: `diag(-1, -2)` fails the factorization test while
its determinant `2` exceeds the tolerance, and the evaluator still returns
the penalty; the zero-determinant trigger is also exercised at `[[0]]`. -/
theorem contribution_degenerate_penalty_witness :
    (¬ choleskyOk exDiagNeg ∧ eps < exDiagNeg.det ∧
      contribution exDiagNeg (fun _ => 1) = penalty)
    ∧ ((exm 0).det ≤ eps ∧ contribution (exm 0) (exInnov 3 0) = penalty) :=
  ⟨⟨exDiagNeg_not_choleskyOk,
    by norm_num [eps, exDiagNeg, Matrix.det_fin_two, Matrix.of_apply],
    (contribution_degenerate_penalty 2 exDiagNeg (fun _ => 1)
      (Or.inl exDiagNeg_not_choleskyOk)).1⟩,
   ⟨by norm_num [exm, eps, Matrix.det_fin_one],
    (contribution_degenerate_penalty 1 (exm 0) (exInnov 3 0)
      (Or.inr (by norm_num [exm, eps, Matrix.det_fin_one]))).1⟩⟩

/-- Modelled from the spec and the caller in `usage_example.py`: keep only
the lower triangle of a matrix (the optimized recursion writes only these
entries; the rest remain zero). -/
def lowerTri (M : Mat n) : Mat n :=
  Matrix.of fun i j => if (j : ℕ) ≤ (i : ℕ) then M i j else 0

/-- Modelled from the caller in `usage_example.py` (lines 109–111): mirror
the lower triangle onto the upper one. -/
def mirrorLower (M : Mat n) : Mat n :=
  Matrix.of fun i j => if (j : ℕ) ≤ (i : ℕ) then M i j else M j i

/-- Modelled from the spec: the optimized recursion `filter_var` (missing
from `src/`): it computes each update from the symmetric reconstruction of
the previous step and stores only the lower triangle of the result; the
caller-supplied seed `H[0]` is left untouched. -/
def filter_var (cmat amat bmat h0 : Mat n) (innov : ℕ → Vec n) : ℕ → Mat n
  | 0 => h0
  | t + 1 =>
      lowerTri (bekkStep cmat amat bmat
        (mirrorLower (filter_var cmat amat bmat h0 innov t)) (innov t))

/-- Modelled from the spec: the optimized likelihood evaluator
`likelihood_gauss` (missing from `src/`): a sequential accumulation over
`t = 1 … T−1` of the same per-observation contributions, divided by the
number of terms. -/
noncomputable def likelihood_gauss (hvar : ℕ → Mat n) (innov : ℕ → Vec n)
    (T : ℕ) : ℝ :=
  ((List.range T).drop 1).foldl (fun acc t => acc + contribution (hvar t) (innov t)) 0
    / ((T - 1 : ℕ) : ℝ)

lemma foldl_add_eq_sum (f : ℕ → ℝ) (l : List ℕ) (a : ℝ) :
    l.foldl (fun acc t => acc + f t) a = a + (l.map f).sum := by
  induction l generalizing a with
  | nil => simp
  | cons hd tl ih => simp [ih, add_assoc]

lemma dropOne_range_map_sum (f : ℕ → ℝ) (T : ℕ) :
    (((List.range T).drop 1).map f).sum = ∑ t ∈ Finset.Ico 1 T, f t := by
  induction T with
  | zero => simp
  | succ S ih =>
    rcases Nat.eq_zero_or_pos S with hS | hS
    · subst hS
      simp
    · rw [List.range_succ, List.drop_append_eq_append_drop, List.map_append,
        List.sum_append, ih, List.length_range]
      have h1 : 1 - S = 0 := by omega
      rw [h1, List.drop_zero, Finset.sum_Ico_succ_top hS]
      simp

lemma likelihood_gauss_eq_python (n : ℕ) (hvar : ℕ → Mat n)
    (innov : ℕ → Vec n) (T : ℕ) :
    likelihood_gauss hvar innov T = likelihood_python hvar innov T := by
  rw [likelihood_gauss, likelihood_python, foldl_add_eq_sum, zero_add,
    dropOne_range_map_sum]

lemma mirrorLower_of_isSymm (M : Mat n) (hM : M.IsSymm) : mirrorLower M = M := by
  ext i j
  rw [mirrorLower, Matrix.of_apply]
  split_ifs with h
  · rfl
  · exact hM.apply i j

lemma mirrorLower_lowerTri (M : Mat n) (hM : M.IsSymm) :
    mirrorLower (lowerTri M) = M := by
  ext i j
  rw [mirrorLower, Matrix.of_apply]
  split_ifs with h
  · rw [lowerTri, Matrix.of_apply, if_pos h]
  · have h2 : (i : ℕ) ≤ (j : ℕ) := le_of_lt (not_le.mp h)
    rw [lowerTri, Matrix.of_apply, if_pos h2]
    exact hM.apply i j

lemma filter_var_python_isSymm_aux (cmat amat bmat h0 : Mat n)
    (innov : ℕ → Vec n) (hc : cmat.IsSymm) (hh : h0.IsSymm) (t : ℕ) :
    (filter_var_python cmat amat bmat h0 innov t).IsSymm := by
  induction t with
  | zero => exact hh
  | succ s ih => exact bekkStep_isSymm cmat amat bmat _ (innov s) hc ih

/-- C10: the naive and the optimized implementations are equivalent: for a
symmetric intercept and seed, mirroring the lower triangle of each matrix
produced by `filter_var` yields exactly the `filter_var_python` path, and
`likelihood_gauss` on the mirrored path returns the same value as
`likelihood_python` on the naive path, for every sample length `T`. -/
theorem cython_python_equiv (n : ℕ) (cmat amat bmat h0 : Mat n)
    (innov : ℕ → Vec n) (hc : cmat.IsSymm) (hh : h0.IsSymm) :
    (∀ t, mirrorLower (filter_var cmat amat bmat h0 innov t)
        = filter_var_python cmat amat bmat h0 innov t)
    ∧ ∀ T, likelihood_gauss
          (fun t => mirrorLower (filter_var cmat amat bmat h0 innov t)) innov T
        = likelihood_python
            (fun t => filter_var_python cmat amat bmat h0 innov t) innov T := by
  have key : ∀ t, mirrorLower (filter_var cmat amat bmat h0 innov t)
      = filter_var_python cmat amat bmat h0 innov t := by
    intro t
    induction t with
    | zero => exact mirrorLower_of_isSymm h0 hh
    | succ s ih =>
      show mirrorLower (lowerTri (bekkStep cmat amat bmat
        (mirrorLower (filter_var cmat amat bmat h0 innov s)) (innov s))) = _
      rw [ih]
      exact mirrorLower_lowerTri _
        (bekkStep_isSymm cmat amat bmat _ (innov s) hc
          (filter_var_python_isSymm_aux cmat amat bmat h0 innov hc hh s))
  refine ⟨key, ?_⟩
  intro T
  have hfun : (fun t => mirrorLower (filter_var cmat amat bmat h0 innov t))
      = fun t => filter_var_python cmat amat bmat h0 innov t := funext key
  rw [hfun, likelihood_gauss_eq_python]

/-- Closed witness for C10 at `n = 2`, concrete symmetric inputs. -/
theorem cython_python_equiv_witness :
    (exSym 1 0).IsSymm ∧ (exSym 4 1).IsSymm ∧
    mirrorLower (filter_var (exSym 1 0) (exSym 2 1) (exSym 3 0) (exSym 4 1)
        (fun t i => (t : ℚ) + (i : ℚ)) 1)
      = filter_var_python (exSym 1 0) (exSym 2 1) (exSym 3 0) (exSym 4 1)
          (fun t i => (t : ℚ) + (i : ℚ)) 1 ∧
    likelihood_gauss
        (fun t => mirrorLower (filter_var (exSym 1 0) (exSym 2 1) (exSym 3 0)
          (exSym 4 1) (fun t i => (t : ℚ) + (i : ℚ)) t))
        (fun t i => (t : ℚ) + (i : ℚ)) 2
      = likelihood_python
          (fun t => filter_var_python (exSym 1 0) (exSym 2 1) (exSym 3 0)
            (exSym 4 1) (fun t i => (t : ℚ) + (i : ℚ)) t)
          (fun t i => (t : ℚ) + (i : ℚ)) 2 :=
  ⟨by decide, by decide,
    (cython_python_equiv 2 (exSym 1 0) (exSym 2 1) (exSym 3 0) (exSym 4 1)
      (fun t i => (t : ℚ) + (i : ℚ)) (by decide) (by decide)).1 1,
    (cython_python_equiv 2 (exSym 1 0) (exSym 2 1) (exSym 3 0) (exSym 4 1)
      (fun t i => (t : ℚ) + (i : ℚ)) (by decide) (by decide)).2 2⟩

/-- Modelled from the spec: the error taxonomy of the estimation engine
(construction-time parameter errors and configuration errors). -/
inductive BekkError where
  | invalidParameterError
  | configurationError
  deriving DecidableEq

/-- Principal minor of a square matrix: the determinant of the submatrix
picked out by a set of indices. -/
def principalMinor (A : Mat n) (S : Finset (Fin n)) : ℚ :=
  Matrix.det (A.submatrix (fun i : {x // x ∈ S} => (i : Fin n))
    (fun i : {x // x ∈ S} => (i : Fin n)))

/-- Modelled from the spec: the decidable positive-semidefiniteness test used
at construction time (symmetry plus nonnegativity of all principal minors,
the exact-arithmetic counterpart of the tolerance check). -/
def IsPSDminors (A : Mat n) : Prop :=
  Aᵀ = A ∧ ∀ S : Finset (Fin n), 0 ≤ principalMinor A S

instance (A : Mat n) : Decidable (IsPSDminors A) := by
  unfold IsPSDminors
  infer_instance

/-- Modelled from the spec: the discrete Lyapunov-style intercept identity
`intercept = target − A·target·Aᵗ − B·target·Bᵗ` used by covariance
targeting. -/
def lyapunovIntercept (amat bmat target : Mat n) : Mat n :=
  target - amat * target * amatᵀ - bmat * target * bmatᵀ

/-- Modelled from the spec: `ParamStandard.from_target` (missing from
`src/`): build the intercept from the Lyapunov identity and fail with
`InvalidParameterError` when the result is not positive semi-definite; the
intercept is never altered otherwise. -/
def from_target (amat bmat target : Mat n) : Except BekkError (ParamStandard n) :=
  if IsPSDminors (lyapunovIntercept amat bmat target) then
    Except.ok ⟨lyapunovIntercept amat bmat target, amat, bmat⟩
  else Except.error BekkError.invalidParameterError

/-- C4: `from_target` sets the intercept to
`target − A·target·Aᵗ − B·target·Bᵗ`; it succeeds exactly when that matrix
passes the positive-semidefiniteness check and raises
`InvalidParameterError` exactly otherwise; on success the returned
parameters carry the computed intercept and the given `A`, `B` unchanged
(no silent clamping). -/
theorem from_target_spec (n : ℕ) (amat bmat target : Mat n) :
    (from_target amat bmat target
        = Except.ok ⟨lyapunovIntercept amat bmat target, amat, bmat⟩
      ↔ IsPSDminors (lyapunovIntercept amat bmat target))
    ∧ (from_target amat bmat target
        = Except.error BekkError.invalidParameterError
      ↔ ¬ IsPSDminors (lyapunovIntercept amat bmat target))
    ∧ ∀ p, from_target amat bmat target = Except.ok p →
        p.cmat = lyapunovIntercept amat bmat target ∧ p.amat = amat ∧ p.bmat = bmat := by
  unfold from_target
  split_ifs with h
  · refine ⟨⟨fun _ => h, fun _ => rfl⟩, ⟨fun hcontra => ?_, fun hcontra => absurd h hcontra⟩, ?_⟩
    · exact absurd hcontra (by simp)
    · rintro p hp
      rw [Except.ok.injEq] at hp
      rw [← hp]
      exact ⟨rfl, rfl, rfl⟩
  · refine ⟨⟨fun hcontra => absurd hcontra (by simp), fun hcontra => absurd hcontra h⟩,
      ⟨fun _ => h, fun _ => rfl⟩, ?_⟩
    rintro p hp
    exact absurd hp (by simp)

lemma principalMinor_empty (A : Mat n) : principalMinor A ∅ = 1 := by
  haveI : IsEmpty {x : Fin n // x ∈ (∅ : Finset (Fin n))} :=
    ⟨fun x => Finset.not_mem_empty x.1 x.2⟩
  exact Matrix.det_isEmpty

lemma principalMinor_singleton (A : Mat n) (i : Fin n) :
    principalMinor A {i} = A i i := by
  letI : Unique {x : Fin n // x ∈ ({i} : Finset (Fin n))} :=
    ⟨⟨⟨i, Finset.mem_singleton_self i⟩⟩,
      fun x => Subtype.ext (Finset.mem_singleton.mp x.2)⟩
  rw [principalMinor, Matrix.det_unique]
  rfl

lemma isPSDminors_dim_one (A : Mat 1) (hs : Aᵀ = A) (h : 0 ≤ A 0 0) :
    IsPSDminors A := by
  refine ⟨hs, fun S => ?_⟩
  rcases (by decide : ∀ S : Finset (Fin 1), S = ∅ ∨ S = {0}) S with h1 | h1 <;>
    subst h1
  · rw [principalMinor_empty]
    norm_num
  · rw [principalMinor_singleton]
    exact h

/-- Closed witness for C4 at `n = 1`: `A = B = [[1/2]]`, `target = [[1]]`,
whose derived intercept `[[1/2]]` passes the check. -/
theorem from_target_spec_witness :
    IsPSDminors (lyapunovIntercept (exm (1/2)) (exm (1/2)) (exm 1)) ∧
    from_target (exm (1/2)) (exm (1/2)) (exm 1)
      = Except.ok ⟨lyapunovIntercept (exm (1/2)) (exm (1/2)) (exm 1),
          exm (1/2), exm (1/2)⟩ := by
  have hpsd : IsPSDminors (lyapunovIntercept (exm (1/2)) (exm (1/2)) (exm 1)) := by
    refine isPSDminors_dim_one _ ?_ ?_
    · ext i j
      fin_cases i
      fin_cases j
      rfl
    · simp only [lyapunovIntercept, exm, Matrix.sub_apply, Matrix.mul_apply,
        Matrix.transpose_apply, Matrix.of_apply, Fin.sum_univ_one]
      norm_num
  exact ⟨hpsd, (from_target_spec 1 (exm (1/2)) (exm (1/2)) (exm 1)).1.mpr hpsd⟩

/-- Rational matrix mapped entrywise into the complex numbers. -/
noncomputable def ratToC (A : Mat n) : Matrix (Fin n) (Fin n) ℂ :=
  A.map fun q => (q : ℂ)

/-- Modelled from the spec: the Kronecker stationarity operator
`archCoef ⊗ archCoef + garchCoef ⊗ garchCoef` of a parameter candidate. -/
noncomputable def kronOp (p : ParamStandard n) :
    Matrix (Fin n × Fin n) (Fin n × Fin n) ℂ :=
  Matrix.kroneckerMap (· * ·) (ratToC p.amat) (ratToC p.amat)
    + Matrix.kroneckerMap (· * ·) (ratToC p.bmat) (ratToC p.bmat)

/-- Modelled from the spec: covariance stationarity: every eigenvalue of the
Kronecker operator has modulus strictly below one (spectral radius `< 1`). -/
def Stationary (p : ParamStandard n) : Prop :=
  ∀ μ ∈ spectrum ℂ (kronOp p), ‖μ‖ < 1

/-- Modelled from the spec: the estimator's feasibility constraint: a
candidate can be accepted as a converged optimum only if it is
covariance-stationary; non-stationary candidates are rejected or penalized
by the constraint/objective. -/
def acceptedCandidate (p : ParamStandard n) : Prop := Stationary p

/-- C8: any candidate whose ARCH/GARCH Kronecker operator has an eigenvalue
of modulus at least one (spectral radius `≥ 1`) violates the estimator's
stationarity constraint and is never accepted as a converged optimum. -/
theorem nonstationary_rejected (n : ℕ) (p : ParamStandard n)
    (h : ∃ μ ∈ spectrum ℂ (kronOp p), 1 ≤ ‖μ‖) :
    ¬ acceptedCandidate p := by
  rintro hacc
  obtain ⟨μ, hμ, h1⟩ := h
  exact absurd (hacc μ hμ) (not_lt.mpr h1)

/-- Concrete non-stationary candidate for the C8 witness:
`A = B = [[1]]` at `n = 1`, whose Kronecker operator is `[[2]]`. -/
def exNonstat : ParamStandard 1 := ⟨exm 1, exm 1, exm 1⟩

lemma two_mem_spectrum_exNonstat : (2 : ℂ) ∈ spectrum ℂ (kronOp exNonstat) := by
  rw [spectrum.mem_iff]
  have key : algebraMap ℂ (Matrix (Fin 1 × Fin 1) (Fin 1 × Fin 1) ℂ) 2
      - kronOp exNonstat = 0 := by
    ext i j
    obtain ⟨i1, i2⟩ := i
    obtain ⟨j1, j2⟩ := j
    fin_cases i1
    fin_cases i2
    fin_cases j1
    fin_cases j2
    simp [kronOp, Matrix.kroneckerMap_apply, ratToC, exNonstat, exm,
      Matrix.algebraMap_matrix_apply]
    norm_num
  rw [key]
  exact not_isUnit_zero

/-- Closed witness for C8: the concrete candidate `exNonstat` has spectral
radius `2 ≥ 1` and is rejected. -/
theorem nonstationary_rejected_witness :
    (∃ μ ∈ spectrum ℂ (kronOp exNonstat), 1 ≤ ‖μ‖) ∧
    ¬ acceptedCandidate exNonstat := by
  have h : ∃ μ ∈ spectrum ℂ (kronOp exNonstat), 1 ≤ ‖μ‖ := by
    refine ⟨2, two_mem_spectrum_exNonstat, ?_⟩
    norm_num
  exact ⟨h, nonstationary_rejected 1 exNonstat h⟩

/-- Modelled from the spec: the two model families selectable at the
estimate entry point. -/
inductive ModelKind where
  | standard
  | spatial
  deriving DecidableEq

/-- Modelled from the spec: the result record of one `estimate` call. -/
structure EstimationResult (n : ℕ) where
  param_final : ParamStandard n
  loglikelihood : ℝ
  converged : Bool
  niter : ℕ

/-- Modelled from the spec: the configuration accepted by the estimate entry
point; `groups`/`weights` are required exactly when `model = spatial`. -/
structure EstimateConfig (n : ℕ) where
  model : ModelKind
  use_target : Bool
  groups : Option (List (List (List ℕ)))
  weights : Option (List (Mat n))

/-- Modelled from the spec: the `BEKK.estimate` entry point (missing from
`src/`): configuration is validated first, and only if validation passes is
the parameterize–optimize–terminate pipeline (abstracted as `body`, which
stands for everything from the first optimizer iteration on) ever run. -/
def BEKK.estimate (body : EstimateConfig n → EstimationResult n)
    (cfg : EstimateConfig n) : Except BekkError (EstimationResult n) :=
  if cfg.model = ModelKind.spatial ∧ cfg.groups = none ∧ cfg.weights = none
  then Except.error BekkError.configurationError
  else Except.ok (body cfg)

/-- C9: calling `estimate` with `model = spatial` but neither `groups` nor
`weights` fails with `ConfigurationError` for every possible
optimization-stage `body` — i.e. before any optimizer iteration is run —
while supplying `groups` or `weights` makes the spatial estimation proceed
and return an `EstimationResult`. -/
theorem estimate_spatial_requires_structure (n : ℕ)
    (body : EstimateConfig n → EstimationResult n) (cfg : EstimateConfig n)
    (hm : cfg.model = ModelKind.spatial) :
    (cfg.groups = none → cfg.weights = none →
        BEKK.estimate body cfg = Except.error BekkError.configurationError)
    ∧ (cfg.groups ≠ none ∨ cfg.weights ≠ none →
        BEKK.estimate body cfg = Except.ok (body cfg)) := by
  constructor
  · intro hg hw
    rw [BEKK.estimate, if_pos ⟨hm, hg, hw⟩]
  · intro hsup
    rw [BEKK.estimate, if_neg]
    rintro ⟨-, hg, hw⟩
    rcases hsup with h | h
    · exact h hg
    · exact h hw

/-- Constant optimization-stage body used by the C9 witness. -/
def exBody : EstimateConfig 1 → EstimationResult 1 :=
  fun _ => ⟨exNonstat, 0, true, 0⟩

/-- Spatial configuration without groups and weights (C9 witness). -/
def exCfgMissing : EstimateConfig 1 := ⟨ModelKind.spatial, true, none, none⟩

/-- Spatial configuration with groups supplied (C9 witness). -/
def exCfgGroups : EstimateConfig 1 :=
  ⟨ModelKind.spatial, true, some [[[0, 1], [2, 3]]], none⟩

/-- Closed witness for C9: the missing-structure call fails with
`ConfigurationError`; the call with groups returns a result. -/
theorem estimate_spatial_requires_structure_witness :
    BEKK.estimate exBody exCfgMissing
        = Except.error BekkError.configurationError
    ∧ BEKK.estimate exBody exCfgGroups = Except.ok (exBody exCfgGroups) :=
  ⟨(estimate_spatial_requires_structure 1 exBody exCfgMissing rfl).1 rfl rfl,
    (estimate_spatial_requires_structure 1 exBody exCfgGroups rfl).2
      (Or.inl (by simp [exCfgGroups]))⟩

/-- Flatten a `Fin m`-indexed vector of rationals into a list (one segment
of a compact parameter vector). -/
def encodeVec {m : ℕ} (v : Fin m → ℚ) : List ℚ := (List.finRange m).map v

/-- Read `m` rationals off the front of a list, returning the decoded vector
and the remainder; fails when the list is too short. -/
def decodeVec (m : ℕ) (l : List ℚ) : Option ((Fin m → ℚ) × List ℚ) :=
  if h : m ≤ l.length then
    some (fun i => l.get ⟨i, lt_of_lt_of_le i.isLt h⟩, l.drop m)
  else none

lemma length_encodeVec {m : ℕ} (v : Fin m → ℚ) : (encodeVec v).length = m := by
  simp [encodeVec]

lemma decodeVec_encode {m : ℕ} (v : Fin m → ℚ) (rest : List ℚ) :
    decodeVec m (encodeVec v ++ rest) = some (v, rest) := by
  have hlen : m ≤ (encodeVec v ++ rest).length := by
    simp [length_encodeVec]
  rw [decodeVec, dif_pos hlen]
  have hget : (fun i : Fin m => (encodeVec v ++ rest).get
      ⟨i, lt_of_lt_of_le i.isLt hlen⟩) = v := by
    funext i
    have hi : (i : ℕ) < (encodeVec v).length := by
      rw [length_encodeVec]
      exact i.isLt
    rw [List.get_eq_getElem, List.getElem_append_left hi]
    simp [encodeVec]
  have hdrop : (encodeVec v ++ rest).drop m = rest :=
    List.drop_left' (length_encodeVec v)
  rw [hget, hdrop]

/-- Read one rational off the front of a list. -/
def decodeQ (l : List ℚ) : Option (ℚ × List ℚ) :=
  match l with
  | [] => none
  | q :: r => some (q, r)

/-- Row-major flattening of a square matrix into a `Fin (n*n)`-vector. -/
def matToVec (A : Mat n) : Fin (n * n) → ℚ :=
  fun k => A (finProdFinEquiv.symm k).1 (finProdFinEquiv.symm k).2

/-- Inverse of `matToVec`. -/
def vecToMat {n : ℕ} (v : Fin (n * n) → ℚ) : Mat n :=
  Matrix.of fun i j => v (finProdFinEquiv (i, j))

lemma vecToMat_matToVec (A : Mat n) : vecToMat (matToVec A) = A := by
  ext i j
  simp [vecToMat, matToVec]

/-- Compact encoding of a full matrix: its `n²` entries in a fixed order. -/
def encodeMat (A : Mat n) : List ℚ := encodeVec (matToVec A)

/-- Decode a full matrix from the front of a list. -/
def decodeMat (n : ℕ) (l : List ℚ) : Option (Mat n × List ℚ) :=
  (decodeVec (n * n) l).map fun p => (vecToMat p.1, p.2)

lemma decodeMat_encode (A : Mat n) (rest : List ℚ) :
    decodeMat n (encodeMat A ++ rest) = some (A, rest) := by
  rw [decodeMat, encodeMat, decodeVec_encode]
  simp [vecToMat_matToVec]

/-- Concatenated encoding of one vector of rationals per category, the
`k`-th of length `ng k` (spatial per-group scalars). -/
def encodeDep : (m : ℕ) → (ng : Fin m → ℕ) →
    ((k : Fin m) → Fin (ng k) → ℚ) → List ℚ
  | 0, _, _ => []
  | m + 1, ng, f =>
      encodeVec (f 0) ++ encodeDep m (fun k => ng k.succ) (fun k => f k.succ)

/-- Decode one vector of rationals per category from the front of a list. -/
def decodeDep : (m : ℕ) → (ng : Fin m → ℕ) → List ℚ →
    Option (((k : Fin m) → Fin (ng k) → ℚ) × List ℚ)
  | 0, _, l => some (fun k => k.elim0, l)
  | m + 1, ng, l =>
      (decodeVec (ng 0) l).bind fun p =>
        (decodeDep m (fun k => ng k.succ) p.2).bind fun q =>
          some (Fin.cons p.1 q.1, q.2)

lemma decodeDep_encode : ∀ (m : ℕ) (ng : Fin m → ℕ)
    (f : (k : Fin m) → Fin (ng k) → ℚ) (rest : List ℚ),
    decodeDep m ng (encodeDep m ng f ++ rest) = some (f, rest) := by
  intro m
  induction m with
  | zero =>
    intro ng f rest
    have hf : (fun k : Fin 0 => k.elim0) = f := funext fun k => k.elim0
    simp only [encodeDep, List.nil_append, decodeDep, hf]
  | succ m ih =>
    intro ng f rest
    rw [encodeDep, decodeDep, List.append_assoc, decodeVec_encode,
      Option.some_bind, ih, Option.some_bind]
    show some (Fin.cons (f 0) (Fin.tail f), rest) = some (f, rest)
    rw [Fin.cons_self_tail]

/-- Modelled from the spec: the closed set of restriction tags controlling
how many free scalars parameterize the coefficient matrices (standard
family: `full`, `diagonal`, `scalar`; spatial family: `homo`, `hetero`,
`group`). -/
inductive Restriction where
  | full
  | diagonal
  | scalar
  | homo
  | hetero
  | group
  deriving DecidableEq

/-- Modelled from the spec: a coefficient matrix conforms to a standard
restriction when it actually has the restricted shape: any matrix for
`full`, a diagonal matrix for `diagonal`, a scalar multiple of the identity
for `scalar`; the spatial tags do not apply to the standard family. -/
def MatConforms [NeZero n] (r : Restriction) (A : Mat n) : Prop :=
  match r with
  | .full => True
  | .diagonal => A = Matrix.diagonal (fun i => A i i)
  | .scalar => A = A 0 0 • (1 : Mat n)
  | _ => False

/-- Modelled from the spec: a standard parameter set conforms to a
restriction when both coefficient matrices do. -/
def StdConforms [NeZero n] (r : Restriction) (p : ParamStandard n) : Prop :=
  MatConforms r p.amat ∧ MatConforms r p.bmat

/-- Modelled from the spec: the compact encoding of one coefficient matrix
under a standard restriction: all `n²` entries for `full`, the `n` diagonal
entries for `diagonal`, the single scalar for `scalar`. -/
def encodeCoef [NeZero n] (r : Restriction) (A : Mat n) : List ℚ :=
  match r with
  | .full => encodeMat A
  | .diagonal => encodeVec (fun i => A i i)
  | .scalar => [A 0 0]
  | _ => []

/-- Modelled from the spec: rebuild one coefficient matrix from the front of
a compact vector under a standard restriction. -/
def decodeCoef (r : Restriction) (n : ℕ) (l : List ℚ) :
    Option (Mat n × List ℚ) :=
  match r with
  | .full => decodeMat n l
  | .diagonal => (decodeVec n l).map fun p => (Matrix.diagonal p.1, p.2)
  | .scalar => (decodeQ l).map fun p => (p.1 • (1 : Mat n), p.2)
  | _ => none

lemma decodeCoef_encode [NeZero n] (r : Restriction) (A : Mat n)
    (rest : List ℚ) (hA : MatConforms r A) :
    decodeCoef r n (encodeCoef r A ++ rest) = some (A, rest) := by
  cases r with
  | full =>
    rw [encodeCoef, decodeCoef, decodeMat_encode]
  | diagonal =>
    rw [encodeCoef, decodeCoef, decodeVec_encode, Option.map_some']
    rw [MatConforms] at hA
    rw [← hA]
  | scalar =>
    rw [encodeCoef, decodeCoef]
    show (decodeQ (A 0 0 :: rest)).map _ = _
    rw [decodeQ, Option.map_some']
    rw [MatConforms] at hA
    rw [← hA]
  | homo => exact absurd hA not_false
  | hetero => exact absurd hA not_false
  | group => exact absurd hA not_false

/-- Modelled from the spec: `toTheta` for the standard family: the compact
vector is the (optional) intercept block followed by the two coefficient
blocks; under covariance targeting the intercept is not a free parameter
and is omitted. -/
def toThetaStd [NeZero n] (r : Restriction) (ut : Bool) (p : ParamStandard n) :
    List ℚ :=
  (if ut then [] else encodeMat p.cmat)
    ++ encodeCoef r p.amat ++ encodeCoef r p.bmat

/-- Modelled from the spec: `fromTheta` for the standard family: parse the
(optional) intercept block and the two coefficient blocks, require the
vector to be fully consumed, and under covariance targeting recover the
intercept from the Lyapunov identity with the supplied target covariance. -/
def fromThetaStd (r : Restriction) (ut : Bool) (target : Mat n) (l : List ℚ) :
    Option (ParamStandard n) :=
  (if ut then some ((none : Option (Mat n)), l)
    else (decodeMat n l).map fun p => (some p.1, p.2)).bind fun s =>
    (decodeCoef r n s.2).bind fun pa =>
      (decodeCoef r n pa.2).bind fun pb =>
        if pb.2 = [] then
          some ⟨(match s.1 with
            | some c => c
            | none => lyapunovIntercept pa.1 pb.1 target), pa.1, pb.1⟩
        else none

lemma roundtripStd (n : ℕ) [NeZero n] (r : Restriction) (ut : Bool)
    (p : ParamStandard n) (target : Mat n) (hconf : StdConforms r p)
    (htar : ut = true → p.cmat = lyapunovIntercept p.amat p.bmat target) :
    fromThetaStd r ut target (toThetaStd r ut p) = some p := by
  obtain ⟨ha, hb⟩ := hconf
  have hb' : encodeCoef r p.bmat = encodeCoef r p.bmat ++ [] :=
    (List.append_nil _).symm
  cases ut with
  | false =>
    rw [toThetaStd, fromThetaStd, if_neg Bool.false_ne_true,
      if_neg Bool.false_ne_true, List.append_assoc, decodeMat_encode,
      Option.map_some', Option.some_bind, decodeCoef_encode r p.amat _ ha,
      Option.some_bind, hb', decodeCoef_encode r p.bmat _ hb,
      Option.some_bind, if_pos rfl]
  | true =>
    rw [toThetaStd, fromThetaStd, if_pos rfl, if_pos rfl, List.nil_append,
      Option.some_bind, decodeCoef_encode r p.amat _ ha, Option.some_bind,
      hb', decodeCoef_encode r p.bmat _ hb, Option.some_bind, if_pos rfl]
    rw [← htar rfl]

/-- Modelled from the spec: the fixed, externally supplied spatial
structure: one row-stochastic weight matrix per category, and for each
category a set of groups, as a total assignment `gmap` of stocks to group
identifiers together with a representative member `rep` of every group. -/
structure SpatialSpec (ncat nst : ℕ) where
  weights : Fin ncat → Mat nst
  ng : Fin ncat → ℕ
  gmap : (k : Fin ncat) → Fin nst → Fin (ng k)
  rep : (k : Fin ncat) → (g : Fin (ng k)) → Fin nst
  gmap_rep : ∀ k g, gmap k (rep k g) = g

/-- Modelled from the spec: structural parameters of the spatial family:
per-category coefficient vectors (`ncat` group categories plus one "own"
category, index `0`) for the ARCH and GARCH sides, and the intercept. -/
structure ParamSpatial (ncat nst : ℕ) where
  avecs : Fin (ncat + 1) → Fin nst → ℚ
  bvecs : Fin (ncat + 1) → Fin nst → ℚ
  cmat : Mat nst

/-- Modelled from the spec: algebraic expansion of a spatial coefficient
family into a full `n × n` matrix: the own-category vector acts on the
diagonal and each group category acts through its weight matrix. -/
def expandSpatial (S : SpatialSpec ncat nst) (v : Fin (ncat + 1) → Fin nst → ℚ) :
    Mat nst :=
  Matrix.diagonal (v 0) + ∑ k : Fin ncat, Matrix.diagonal (v k.succ) * S.weights k

/-- Index of a group category used by the homogeneous encoding (the first
group category when one exists, the own category otherwise). -/
def homoGrpIdx (ncat : ℕ) : Fin (ncat + 1) :=
  ⟨1 % (ncat + 1), Nat.mod_lt 1 (Nat.succ_pos ncat)⟩

/-- Modelled from the spec: a spatial coefficient family conforms to a
spatial restriction when it is generated by the restriction's free scalars:
`hetero` — one scalar per category (rows constant); `homo` — one scalar for
the own category and one shared by all group categories; `group` — one
scalar for the own category and one per individual group (entries constant
on groups).  Standard tags do not apply to the spatial family. -/
def SpVecConforms [NeZero nst] (r : Restriction) (S : SpatialSpec ncat nst)
    (v : Fin (ncat + 1) → Fin nst → ℚ) : Prop :=
  match r with
  | .hetero => ∀ c i, v c i = v c 0
  | .homo => (∀ c i, v c i = v c 0)
      ∧ ∀ k h : Fin ncat, v k.succ 0 = v h.succ 0
  | .group => (∀ i, v 0 i = v 0 0)
      ∧ ∀ (k : Fin ncat) (i j : Fin nst), S.gmap k i = S.gmap k j →
          v k.succ i = v k.succ j
  | _ => False

/-- Modelled from the spec: a spatial parameter set conforms to a
restriction when both coefficient families do. -/
def SpConforms [NeZero nst] (r : Restriction) (S : SpatialSpec ncat nst)
    (p : ParamSpatial ncat nst) : Prop :=
  SpVecConforms r S p.avecs ∧ SpVecConforms r S p.bvecs

/-- Modelled from the spec: the compact encoding of one spatial coefficient
family: per-category scalars for `hetero`, an own/shared pair for `homo`,
the own scalar followed by the per-group scalars for `group`. -/
def encodeSpCoef [NeZero nst] (r : Restriction) (S : SpatialSpec ncat nst)
    (v : Fin (ncat + 1) → Fin nst → ℚ) : List ℚ :=
  match r with
  | .hetero => encodeVec (fun c => v c 0)
  | .homo => [v 0 0, v (homoGrpIdx ncat) 0]
  | .group => v 0 0 :: encodeDep ncat S.ng (fun k g => v k.succ (S.rep k g))
  | _ => []

/-- Modelled from the spec: rebuild one spatial coefficient family from the
front of a compact vector under a spatial restriction. -/
def decodeSpCoef (r : Restriction) (S : SpatialSpec ncat nst) (l : List ℚ) :
    Option ((Fin (ncat + 1) → Fin nst → ℚ) × List ℚ) :=
  match r with
  | .hetero => (decodeVec (ncat + 1) l).map fun p => (fun c _ => p.1 c, p.2)
  | .homo =>
      (decodeQ l).bind fun p =>
        (decodeQ p.2).map fun q =>
          (Fin.cons (fun _ => p.1) (fun _ _ => q.1), q.2)
  | .group =>
      (decodeQ l).bind fun p =>
        (decodeDep ncat S.ng p.2).map fun q =>
          (Fin.cons (fun _ => p.1) (fun k i => q.1 k (S.gmap k i)), q.2)
  | _ => none

lemma decodeSpCoef_encode [NeZero nst] (r : Restriction) (S : SpatialSpec ncat nst)
    (v : Fin (ncat + 1) → Fin nst → ℚ) (rest : List ℚ)
    (hv : SpVecConforms r S v) :
    decodeSpCoef r S (encodeSpCoef r S v ++ rest) = some (v, rest) := by
  cases r with
  | hetero =>
    rw [encodeSpCoef, decodeSpCoef, decodeVec_encode, Option.map_some']
    have hfun : (fun c _ => (fun c => v c 0) c) = v := by
      funext c i
      exact (hv c i).symm
    rw [hfun]
  | homo =>
    rw [encodeSpCoef, decodeSpCoef]
    show (decodeQ (v 0 0 :: v (homoGrpIdx ncat) 0 :: rest)).bind _ = _
    rw [decodeQ, Option.some_bind, decodeQ, Option.map_some']
    have hfun : (Fin.cons (fun _ => v 0 0) (fun _ _ => v (homoGrpIdx ncat) 0)
        : Fin (ncat + 1) → Fin nst → ℚ) = v := by
      funext c
      refine Fin.cases ?_ ?_ c
      · rw [Fin.cons_zero]
        funext i
        exact (hv.1 0 i).symm
      · intro k
        rw [Fin.cons_succ]
        funext i
        have hpos : 0 < ncat := k.pos
        have hidx : homoGrpIdx ncat = Fin.succ ⟨0, hpos⟩ := by
          apply Fin.ext
          show 1 % (ncat + 1) = 1
          exact Nat.mod_eq_of_lt (by omega)
        rw [hidx]
        rw [hv.2 ⟨0, hpos⟩ k]
        exact (hv.1 k.succ i).symm
    rw [hfun]
  | group =>
    rw [encodeSpCoef, decodeSpCoef]
    show (decodeQ (v 0 0 :: (encodeDep ncat S.ng _ ++ rest))).bind _ = _
    rw [decodeQ, Option.some_bind, decodeDep_encode, Option.map_some']
    have hfun : (Fin.cons (fun _ => v 0 0)
        (fun k i => v k.succ (S.rep k (S.gmap k i)))
        : Fin (ncat + 1) → Fin nst → ℚ) = v := by
      funext c
      refine Fin.cases ?_ ?_ c
      · rw [Fin.cons_zero]
        funext i
        exact (hv.1 i).symm
      · intro k
        rw [Fin.cons_succ]
        funext i
        exact hv.2 k (S.rep k (S.gmap k i)) i (by rw [S.gmap_rep])
    rw [hfun]
  | full => exact absurd hv not_false
  | diagonal => exact absurd hv not_false
  | scalar => exact absurd hv not_false

/-- Modelled from the spec: `toTheta` for the spatial family: the (optional)
intercept block followed by the two compact coefficient blocks. -/
def toThetaSp [NeZero nst] (r : Restriction) (ut : Bool) (S : SpatialSpec ncat nst)
    (p : ParamSpatial ncat nst) : List ℚ :=
  (if ut then [] else encodeMat p.cmat)
    ++ encodeSpCoef r S p.avecs ++ encodeSpCoef r S p.bvecs

/-- Modelled from the spec: `fromTheta` for the spatial family: parse the
(optional) intercept block and the two coefficient blocks, require full
consumption, and under targeting recover the intercept from the Lyapunov
identity applied to the expanded coefficient matrices. -/
def fromThetaSp (r : Restriction) (ut : Bool) (S : SpatialSpec ncat nst)
    (target : Mat nst) (l : List ℚ) : Option (ParamSpatial ncat nst) :=
  (if ut then some ((none : Option (Mat nst)), l)
    else (decodeMat nst l).map fun p => (some p.1, p.2)).bind fun s =>
    (decodeSpCoef r S s.2).bind fun pa =>
      (decodeSpCoef r S pa.2).bind fun pb =>
        if pb.2 = [] then
          some ⟨pa.1, pb.1, (match s.1 with
            | some c => c
            | none => lyapunovIntercept (expandSpatial S pa.1)
                (expandSpatial S pb.1) target)⟩
        else none

lemma roundtripSp (ncat nst : ℕ) [NeZero nst] (S : SpatialSpec ncat nst) (r : Restriction)
    (ut : Bool) (p : ParamSpatial ncat nst) (target : Mat nst)
    (hconf : SpConforms r S p)
    (htar : ut = true → p.cmat = lyapunovIntercept (expandSpatial S p.avecs)
        (expandSpatial S p.bvecs) target) :
    fromThetaSp r ut S target (toThetaSp r ut S p) = some p := by
  obtain ⟨ha, hb⟩ := hconf
  have hb' : encodeSpCoef r S p.bvecs = encodeSpCoef r S p.bvecs ++ [] :=
    (List.append_nil _).symm
  cases ut with
  | false =>
    rw [toThetaSp, fromThetaSp, if_neg Bool.false_ne_true,
      if_neg Bool.false_ne_true, List.append_assoc, decodeMat_encode,
      Option.map_some', Option.some_bind, decodeSpCoef_encode r S p.avecs _ ha,
      Option.some_bind, hb', decodeSpCoef_encode r S p.bvecs _ hb,
      Option.some_bind, if_pos rfl]
  | true =>
    rw [toThetaSp, fromThetaSp, if_pos rfl, if_pos rfl, List.nil_append,
      Option.some_bind, decodeSpCoef_encode r S p.avecs _ ha,
      Option.some_bind, hb', decodeSpCoef_encode r S p.bvecs _ hb,
      Option.some_bind, if_pos rfl]
    rw [← htar rfl]

/-- C3: for every structural parameter set that conforms to a supported
restriction tag (standard family: `full`, `diagonal`, `scalar`; spatial
family: `homo`, `hetero`, `group`) and every targeting mode, the
compact-coordinate mapping is a round-trip inverse: `fromTheta` applied to
`toTheta` reproduces the parameters exactly (under targeting, provided the
supplied target satisfies the Lyapunov intercept identity, which is what
makes the parameters valid for that target). -/
theorem theta_roundtrip :
    (∀ (n : ℕ) [NeZero n] (r : Restriction) (ut : Bool) (p : ParamStandard n)
        (target : Mat n), StdConforms r p →
        (ut = true → p.cmat = lyapunovIntercept p.amat p.bmat target) →
        fromThetaStd r ut target (toThetaStd r ut p) = some p)
    ∧ ∀ (ncat nst : ℕ) [NeZero nst] (S : SpatialSpec ncat nst)
        (r : Restriction) (ut : Bool) (p : ParamSpatial ncat nst)
        (target : Mat nst), SpConforms r S p →
        (ut = true → p.cmat = lyapunovIntercept (expandSpatial S p.avecs)
            (expandSpatial S p.bvecs) target) →
        fromThetaSp r ut S target (toThetaSp r ut S p) = some p :=
  ⟨fun n hn r ut p target hconf htar =>
      @roundtripStd n hn r ut p target hconf htar,
    fun ncat nst hn S r ut p target hconf htar =>
      @roundtripSp ncat nst hn S r ut p target hconf htar⟩

/-- Concrete scalar-conforming standard parameters for the C3 witness. -/
def exStdP : ParamStandard 1 := ⟨exm (1/2), exm (1/2), exm (1/2)⟩

lemma exStdP_conf : StdConforms Restriction.scalar exStdP := by
  constructor <;>
  · show exm (1/2) = exm (1/2) 0 0 • (1 : Mat 1)
    ext i j
    fin_cases i
    fin_cases j
    simp [exm, Matrix.smul_apply, Matrix.one_apply]

lemma exStdP_tar : exStdP.cmat = lyapunovIntercept exStdP.amat exStdP.bmat (exm 1) := by
  ext i j
  fin_cases i
  fin_cases j
  simp only [exStdP, lyapunovIntercept, exm, Matrix.sub_apply, Matrix.mul_apply,
    Matrix.transpose_apply, Matrix.of_apply, Fin.sum_univ_one]
  norm_num

/-- Concrete spatial structure for the C3 witness: one category, two stocks,
a single group containing the representative stock `0`. -/
def exSpS : SpatialSpec 1 2 :=
  ⟨fun _ => exSym 0 1, fun _ => 1, fun _ _ => 0, fun _ _ => 0, by decide⟩

/-- Concrete homogeneous-conforming spatial parameters for the C3 witness. -/
def exSpP : ParamSpatial 1 2 := ⟨fun _ _ => 3, fun _ _ => 5, exSym 1 0⟩

lemma exSpP_conf : SpConforms Restriction.homo exSpS exSpP :=
  ⟨⟨fun _ _ => rfl, fun _ _ => rfl⟩, ⟨fun _ _ => rfl, fun _ _ => rfl⟩⟩

/-- Closed witness for C3: a concrete scalar/targeting round trip in the
standard family and a concrete homogeneous/non-targeting round trip in the
spatial family. -/
theorem theta_roundtrip_witness :
    StdConforms Restriction.scalar exStdP ∧
    exStdP.cmat = lyapunovIntercept exStdP.amat exStdP.bmat (exm 1) ∧
    fromThetaStd Restriction.scalar true (exm 1)
        (toThetaStd Restriction.scalar true exStdP) = some exStdP ∧
    SpConforms Restriction.homo exSpS exSpP ∧
    fromThetaSp Restriction.homo false exSpS (exSym 1 0)
        (toThetaSp Restriction.homo false exSpS exSpP) = some exSpP :=
  ⟨exStdP_conf, exStdP_tar,
    theta_roundtrip.1 1 Restriction.scalar true exStdP (exm 1) exStdP_conf
      (fun _ => exStdP_tar),
    exSpP_conf,
    theta_roundtrip.2 1 2 exSpS Restriction.homo false exSpP (exSym 1 0)
      exSpP_conf (fun h => absurd h Bool.false_ne_true)⟩

end Bekk
